import Mathlib

/-!
Verification of the algorithmic core of interactive_plotting.py:

* the client-side histogram rebinner, the JavaScript slider callback stored in
  the string constant named inter_hist_js_code, modelled here over exact
  rational arithmetic; and
* the kernel-expression evaluator, the inner function of smooth_expression
  that folds a parsed arithmetic expression into a composed covariance kernel.

Every definition is translated line by line from the source; comments quote
the corresponding source lines.
-/

namespace InterHist

/-- Source: `x = x.sort((a, b) => a - b);` sorts the sample array ascending
(numeric comparator).  Modelled with insertion sort; the result is the unique
ascending-sorted permutation of the input, which is all later steps depend on. -/
def xSorted (values : List ℚ) : List ℚ :=
  List.insertionSort (· ≤ ·) values

/-- Source: `x[0]` after sorting, the minimum sample.  The callback is only
ever run on a nonempty array; the default 0 is unreachable under the
nonemptiness hypotheses of the theorems below. -/
def lo (values : List ℚ) : ℚ := (xSorted values).headD 0

/-- Source: `x[x.length - 1]` after sorting, the maximum sample. -/
def hi (values : List ℚ) : ℚ := (xSorted values).getLastD 0

/-- Source: `var bin_size = (x[x.length - 1] - x[0]) / n_bins;`. -/
def bin_size (values : List ℚ) (n_bins : ℕ) : ℚ :=
  (hi values - lo values) / n_bins

/-- Source: `var l_edges = new Array(n_bins).fill().map((_, i) => x[0] + bin_size * i);`. -/
def l_edges (values : List ℚ) (n_bins : ℕ) : List ℚ :=
  (List.range n_bins).map fun (i : ℕ) => lo values + bin_size values n_bins * (i : ℚ)

/-- Source: `var r_edges = new Array(n_bins).fill().map((_, i) => x[0] + bin_size * (i + 1));`. -/
def r_edges (values : List ℚ) (n_bins : ℕ) : List ℚ :=
  (List.range n_bins).map fun (i : ℕ) => lo values + bin_size values n_bins * ((i : ℚ) + 1)

/-- The inner loop of the histogram double loop: scan the bins in increasing
order and return the index of the first right edge satisfying
`x[i] <= r_edges[j]` (the break), or none when the scan falls through. -/
def firstBin (v : ℚ) : List ℚ → Option ℕ
  | [] => none
  | e :: rest => if v ≤ e then some 0 else (firstBin v rest).map (· + 1)

/-- Source: `hist[j] += 1;` at index j. -/
def bumpAt : List ℕ → ℕ → List ℕ
  | [], _ => []
  | c :: cs, 0 => (c + 1) :: cs
  | c :: cs, j + 1 => c :: bumpAt cs j

/-- The outer loop `for (var i = 0; i < x.length; i++)`: fold every sample into
the counts array; a sample whose scan finds no bin is silently skipped (the
inner loop has no else branch). -/
def histLoop (redges : List ℚ) : List ℚ → List ℕ → List ℕ
  | [], h => h
  | v :: rest, h =>
    histLoop redges rest
      (match firstBin v redges with
       | some j => bumpAt h j
       | none => h)

/-- Source: `var hist = new Array(n_bins).fill().map((_, i) => 0);` followed by
the double counting loop. -/
def hist (values : List ℚ) (n_bins : ℕ) : List ℕ :=
  histLoop (r_edges values n_bins) (xSorted values) (List.replicate n_bins 0)

/-- Source: `var sum = hist.reduce((a, b) => a + b, 0);` (as a rational, since
it is used as a divisor below). -/
def total (values : List ℚ) (n_bins : ℕ) : ℚ :=
  ((hist values n_bins).map (Nat.cast : ℕ → ℚ)).sum

/-- Source: `var deltas = r_edges.map((c, i) => c - l_edges[i]);`. -/
def deltas (values : List ℚ) (n_bins : ℕ) : List ℚ :=
  List.zipWith (fun r l => r - l) (r_edges values n_bins) (l_edges values n_bins)

/-- Source: `hist = hist.map((c, i) => c / deltas[i] / sum);`. -/
def density (values : List ℚ) (n_bins : ℕ) : List ℚ :=
  List.zipWith (fun (c : ℕ) (d : ℚ) => (c : ℚ) / d / total values n_bins)
    (hist values n_bins) (deltas values n_bins)

/-- The three arrays written back into the bokeh data source, together with the
intermediate integer counts (the value of hist before the density rescale). -/
structure RebinResult where
  l_edges : List ℚ
  r_edges : List ℚ
  counts : List ℕ
  density : List ℚ
deriving DecidableEq

/-- The whole rebinning computation of the callback. -/
def rebin (values : List ℚ) (n_bins : ℕ) : RebinResult :=
  ⟨l_edges values n_bins, r_edges values n_bins, hist values n_bins,
    density values n_bins⟩

/-- One invocation of the callback including its effect on the stored sample
array: `var x = orig.data[..]; x = x.sort(..)` uses Array.prototype.sort, which
sorts the backing array in place, so after the callback the data source holds
the sorted array. -/
def rebinStep (orig : List ℚ) (n_bins : ℕ) : List ℚ × RebinResult :=
  (xSorted orig, rebin orig n_bins)

/-! Basic facts about the sorted sample array. -/

lemma xSorted_sorted (values : List ℚ) : (xSorted values).Sorted (· ≤ ·) :=
  List.sorted_insertionSort _ _

lemma xSorted_perm (values : List ℚ) : (xSorted values).Perm values :=
  List.perm_insertionSort _ _

lemma mem_xSorted {values : List ℚ} {v : ℚ} : v ∈ xSorted values ↔ v ∈ values :=
  (xSorted_perm values).mem_iff

lemma length_xSorted (values : List ℚ) : (xSorted values).length = values.length :=
  (xSorted_perm values).length_eq

lemma xSorted_idem (values : List ℚ) : xSorted (xSorted values) = xSorted values :=
  (xSorted_sorted values).insertionSort_eq

lemma headD_le_of_sorted {l : List ℚ} (hs : l.Sorted (· ≤ ·)) :
    ∀ v ∈ l, l.headD 0 ≤ v := by
  intro v hv
  cases l with
  | nil => cases hv
  | cons a t =>
    rcases List.mem_cons.mp hv with rfl | h
    · simp
    · simpa using (List.sorted_cons.mp hs).1 v h

lemma le_getLastD_of_sorted :
    ∀ (l : List ℚ), l.Sorted (· ≤ ·) → ∀ v ∈ l, v ≤ l.getLastD 0 := by
  intro l
  induction l with
  | nil => intro _ v hv; cases hv
  | cons a t ih =>
    intro hs v hv
    rcases List.sorted_cons.mp hs with ⟨ha, ht⟩
    cases t with
    | nil =>
      rcases List.mem_singleton.mp hv with rfl
      simp
    | cons b t2 =>
      have hlast : (a :: b :: t2).getLastD 0 = (b :: t2).getLastD 0 := by
        simp [List.getLastD_cons]
      rcases List.mem_cons.mp hv with rfl | h
      · have hb := ih ht b (List.mem_cons_self b t2)
        have hab : v ≤ b := ha b (List.mem_cons_self b t2)
        rw [hlast]
        exact le_trans hab hb
      · rw [hlast]
        exact ih ht v h

/-- The minimum of the samples bounds every sample from below. -/
lemma lo_le_mem (values : List ℚ) {v : ℚ} (hv : v ∈ values) : lo values ≤ v :=
  headD_le_of_sorted (xSorted_sorted values) v (mem_xSorted.mpr hv)

/-- The maximum of the samples bounds every sample from above. -/
lemma le_hi_mem (values : List ℚ) {v : ℚ} (hv : v ∈ values) : v ≤ hi values :=
  le_getLastD_of_sorted _ (xSorted_sorted values) v (mem_xSorted.mpr hv)

/-! Facts about the inner bin scan and the counting loop. -/

lemma firstBin_lt_length {v : ℚ} :
    ∀ {l : List ℚ} {j : ℕ}, firstBin v l = some j → j < l.length := by
  intro l
  induction l with
  | nil => intro j h; simp [firstBin] at h
  | cons e rest ih =>
    intro j h
    rw [firstBin] at h
    by_cases hc : v ≤ e
    · rw [if_pos hc] at h
      injection h with h
      simp [← h]
    · rw [if_neg hc] at h
      rcases Option.map_eq_some'.mp h with ⟨j2, hj2, rfl⟩
      have := ih hj2
      simp only [List.length_cons]
      omega

lemma firstBin_isSome {v : ℚ} :
    ∀ {l : List ℚ}, (∃ e ∈ l, v ≤ e) → (firstBin v l).isSome := by
  intro l
  induction l with
  | nil => rintro ⟨e, he, _⟩; cases he
  | cons a rest ih =>
    rintro ⟨e, he, hve⟩
    rw [firstBin]
    by_cases hc : v ≤ a
    · rw [if_pos hc]; rfl
    · rw [if_neg hc]
      rcases List.mem_cons.mp he with rfl | h
      · exact absurd hve hc
      · have := ih ⟨e, h, hve⟩
        rw [Option.isSome_map']
        exact this

lemma bumpAt_length : ∀ (l : List ℕ) (j : ℕ), (bumpAt l j).length = l.length := by
  intro l
  induction l with
  | nil => intro j; rfl
  | cons c cs ih =>
    intro j
    cases j with
    | zero => rfl
    | succ j => simp [bumpAt, ih]

lemma bumpAt_sum : ∀ (l : List ℕ) (j : ℕ), j < l.length → (bumpAt l j).sum = l.sum + 1 := by
  intro l
  induction l with
  | nil => intro j h; simp at h
  | cons c cs ih =>
    intro j hj
    cases j with
    | zero => simp [bumpAt, List.sum_cons]; omega
    | succ j =>
      have hj2 : j < cs.length := by simpa using hj
      simp [bumpAt, List.sum_cons, ih j hj2]
      omega

lemma histLoop_length (redges : List ℚ) :
    ∀ (xs : List ℚ) (h : List ℕ), (histLoop redges xs h).length = h.length := by
  intro xs
  induction xs with
  | nil => intro h; rfl
  | cons v rest ih =>
    intro h
    rw [histLoop]
    cases hfb : firstBin v redges with
    | none => exact ih h
    | some j => exact (ih (bumpAt h j)).trans (bumpAt_length h j)

lemma histLoop_sum (redges : List ℚ) :
    ∀ (xs : List ℚ) (h : List ℕ), h.length = redges.length →
      (∀ v ∈ xs, (firstBin v redges).isSome) →
      (histLoop redges xs h).sum = h.sum + xs.length := by
  intro xs
  induction xs with
  | nil => intro h _ _; simp [histLoop]
  | cons v rest ih =>
    intro h hlen hall
    have hsome : (firstBin v redges).isSome := hall v (List.mem_cons_self v rest)
    rcases Option.isSome_iff_exists.mp hsome with ⟨j, hj⟩
    rw [histLoop, hj]
    have hjlt : j < h.length := hlen ▸ firstBin_lt_length hj
    show (histLoop redges rest (bumpAt h j)).sum = h.sum + (rest.length + 1)
    rw [ih (bumpAt h j) ((bumpAt_length h j).trans hlen)
        (fun w hw => hall w (List.mem_cons_of_mem v hw)),
      bumpAt_sum h j hjlt]
    omega

lemma r_edges_length (values : List ℚ) (n : ℕ) : (r_edges values n).length = n := by
  rw [r_edges, List.length_map, List.length_range]

lemma hist_length (values : List ℚ) (n : ℕ) : (hist values n).length = n := by
  rw [hist, histLoop_length, List.length_replicate]

/-- The last right edge is exactly the maximum sample: in exact arithmetic
`x[0] + bin_size * n_bins = x[x.length - 1]`. -/
lemma hi_mem_r_edges (values : List ℚ) (n : ℕ) (hn : 1 ≤ n) :
    hi values ∈ r_edges values n := by
  rw [r_edges]
  have hmem : n - 1 ∈ List.range n := List.mem_range.mpr (by omega)
  refine List.mem_map.mpr ⟨n - 1, hmem, ?_⟩
  have hne : (n : ℚ) ≠ 0 := Nat.cast_ne_zero.mpr (by omega)
  have hcast : ((n - 1 : ℕ) : ℚ) + 1 = (n : ℚ) := by
    have : ((n - 1 : ℕ) : ℚ) = (n : ℚ) - 1 := by
      push_cast [Nat.cast_sub hn]
      ring
    rw [this]
    ring
  rw [hcast, bin_size, div_mul_cancel₀ _ hne]
  ring

/-- Every sample of the sorted array is assigned to some bin: its value is at
most the maximum, which equals the last right edge. -/
lemma firstBin_some_r_edges (values : List ℚ) (n : ℕ) (hn : 1 ≤ n)
    {v : ℚ} (hv : v ∈ xSorted values) : (firstBin v (r_edges values n)).isSome :=
  firstBin_isSome ⟨hi values, hi_mem_r_edges values n hn,
    le_getLastD_of_sorted _ (xSorted_sorted values) v hv⟩

/-- No sample is dropped: the counts add up to the number of samples. -/
lemma hist_sum (values : List ℚ) (n : ℕ) (hn : 1 ≤ n) :
    (hist values n).sum = values.length := by
  rw [hist, histLoop_sum (r_edges values n) (xSorted values) _
      (by rw [List.length_replicate, r_edges_length])
      (fun v hv => firstBin_some_r_edges values n hn hv)]
  rw [List.sum_replicate, length_xSorted]
  simp

lemma total_eq (values : List ℚ) (n : ℕ) (hn : 1 ≤ n) :
    total values n = (values.length : ℚ) := by
  rw [total, ← Nat.cast_list_sum, hist_sum values n hn]

/-! Facts about the bin widths and the density normalization. -/

lemma zipWith_sub_map_map (f g : ℕ → ℚ) :
    ∀ l : List ℕ,
      List.zipWith (fun r l2 => r - l2) (l.map f) (l.map g) = l.map fun i => f i - g i := by
  intro l
  induction l with
  | nil => rfl
  | cons a t ih => simp [ih]

/-- Every bin width equals bin_size exactly (no floating-point drift over ℚ). -/
lemma deltas_eq (values : List ℚ) (n : ℕ) :
    deltas values n = (List.range n).map fun _ => bin_size values n := by
  rw [deltas, r_edges, l_edges, zipWith_sub_map_map]
  refine List.map_congr_left fun i _ => ?_
  ring

lemma sum_zipWith_density (T : ℚ) :
    ∀ (cs : List ℕ) (ds : List ℚ), cs.length = ds.length → (∀ d ∈ ds, d ≠ 0) →
      (List.zipWith (fun dns δ => dns * δ)
        (List.zipWith (fun (c : ℕ) (d : ℚ) => (c : ℚ) / d / T) cs ds) ds).sum
        = ((cs.map (Nat.cast : ℕ → ℚ)).sum) / T := by
  intro cs
  induction cs with
  | nil => intro ds _ _; simp
  | cons c cst ih =>
    intro ds hlen hne
    cases ds with
    | nil => simp at hlen
    | cons d dst =>
      have hd : d ≠ 0 := hne d (List.mem_cons_self d dst)
      have hrec := ih dst (by simpa using hlen) (fun x hx => hne x (List.mem_cons_of_mem d hx))
      simp only [List.zipWith_cons_cons, List.sum_cons, List.map_cons, hrec]
      rw [div_mul_eq_mul_div, div_mul_cancel₀ _ hd, div_add_div_same]

lemma lo_ne_hi (values : List ℚ) (hdiff : ∃ a ∈ values, ∃ b ∈ values, a ≠ b) :
    lo values ≠ hi values := by
  rcases hdiff with ⟨a, ha, b, hb, hab⟩
  intro h
  have ha2 : a ≤ lo values := h ▸ le_hi_mem values ha
  have hb2 : b ≤ lo values := h ▸ le_hi_mem values hb
  have ha3 : a = lo values := le_antisymm ha2 (lo_le_mem values ha)
  have hb3 : b = lo values := le_antisymm hb2 (lo_le_mem values hb)
  exact hab (ha3.trans hb3.symm)

lemma bin_size_ne_zero (values : List ℚ) (n : ℕ) (hn : 1 ≤ n)
    (hdiff : ∃ a ∈ values, ∃ b ∈ values, a ≠ b) : bin_size values n ≠ 0 := by
  rw [bin_size]
  exact div_ne_zero (sub_ne_zero.mpr (Ne.symm (lo_ne_hi values hdiff)))
    (Nat.cast_ne_zero.mpr (by omega))

/-- The whole rebinning result only depends on the input through its sorted
permutation. -/
lemma rebin_congr (v1 v2 : List ℚ) (n : ℕ) (h : xSorted v1 = xSorted v2) :
    rebin v1 n = rebin v2 n := by
  unfold rebin density total deltas hist r_edges l_edges bin_size hi lo
  rw [h]

/-!
Claim theorems for the histogram rebinner.
-/

/-- C1: for every non-empty sample array whose minimum and maximum differ (the
hypothesis that two values differ is equivalent) and every bin count n_bins at
least 1, the output satisfies, in exact arithmetic,
sum over j of density[j] * (right_edges[j] - left_edges[j]) = 1, where
density[j] = counts[j] / delta[j] / total with delta[j] the edge difference and
total the sum of the counts (this is how density is computed in the source). -/
theorem density_integral_eq_one (values : List ℚ) (n : ℕ) (hn : 1 ≤ n)
    (hne : values ≠ []) (hdiff : ∃ a ∈ values, ∃ b ∈ values, a ≠ b) :
    (List.zipWith (fun dns δ => dns * δ) (rebin values n).density
      (List.zipWith (fun r l => r - l) (rebin values n).r_edges
        (rebin values n).l_edges)).sum = 1 := by
  have hdel : ∀ d ∈ deltas values n, d ≠ 0 := by
    intro d hd
    rw [deltas_eq] at hd
    rcases List.mem_map.mp hd with ⟨i, _, rfl⟩
    exact bin_size_ne_zero values n hn hdiff
  have hlen : (hist values n).length = (deltas values n).length := by
    rw [hist_length, deltas_eq, List.length_map, List.length_range]
  have htot : total values n ≠ 0 := by
    rw [total_eq values n hn]
    exact Nat.cast_ne_zero.mpr (fun h0 => hne (List.length_eq_zero.mp h0))
  show (List.zipWith (fun dns δ => dns * δ) (density values n)
      (deltas values n)).sum = 1
  rw [density, sum_zipWith_density (total values n) (hist values n) (deltas values n)
      hlen hdel]
  show total values n / total values n = 1
  exact div_self htot

/-- Witness for the C1 theorem at a concrete input. -/
theorem density_integral_eq_one_witness :
    1 ≤ 2 ∧ ([0, 1, 1, 4] : List ℚ) ≠ [] ∧
      (∃ a ∈ ([0, 1, 1, 4] : List ℚ), ∃ b ∈ ([0, 1, 1, 4] : List ℚ), a ≠ b) ∧
      (List.zipWith (fun dns δ => dns * δ) (rebin [0, 1, 1, 4] 2).density
        (List.zipWith (fun r l => r - l) (rebin [0, 1, 1, 4] 2).r_edges
          (rebin [0, 1, 1, 4] 2).l_edges)).sum = 1 :=
  ⟨by omega, by simp, ⟨0, by simp, 1, by simp, by norm_num⟩,
    density_integral_eq_one [0, 1, 1, 4] 2 (by omega) (by simp)
      ⟨0, by simp, 1, by simp, by norm_num⟩⟩

/-- C3: for every non-empty sample array whose minimum and maximum differ and
every n_bins at least 1, the membership rule assigns every sample to some bin
(the scan over the right edges always finds one, so no sample is dropped) and
therefore the counts sum to the number of samples. -/
theorem every_sample_binned (values : List ℚ) (n : ℕ) (hn : 1 ≤ n)
    (hne : values ≠ []) (hdiff : ∃ a ∈ values, ∃ b ∈ values, a ≠ b) :
    (∀ v ∈ values, (firstBin v (rebin values n).r_edges).isSome) ∧
      (rebin values n).counts.sum = values.length := by
  constructor
  · intro v hv
    exact firstBin_some_r_edges values n hn (mem_xSorted.mpr hv)
  · exact hist_sum values n hn

/-- Witness for the C3 theorem at a concrete input. -/
theorem every_sample_binned_witness :
    1 ≤ 2 ∧ ([0, 1, 1, 4] : List ℚ) ≠ [] ∧
      (∃ a ∈ ([0, 1, 1, 4] : List ℚ), ∃ b ∈ ([0, 1, 1, 4] : List ℚ), a ≠ b) ∧
      ((∀ v ∈ ([0, 1, 1, 4] : List ℚ),
          (firstBin v (rebin [0, 1, 1, 4] 2).r_edges).isSome) ∧
        (rebin [0, 1, 1, 4] 2).counts.sum = ([0, 1, 1, 4] : List ℚ).length) :=
  ⟨by omega, by simp, ⟨0, by simp, 1, by simp, by norm_num⟩,
    every_sample_binned [0, 1, 1, 4] 2 (by omega) (by simp)
      ⟨0, by simp, 1, by simp, by norm_num⟩⟩

/-- C4: for every non-empty sample array and n_bins at least 1 the edges form a
contiguous partition: adjacent bins share an edge, the first left edge equals
the minimum sample (hence bounds every sample from below), and the last right
edge equals the maximum sample (hence bounds every sample from above), all in
exact arithmetic. -/
theorem edges_partition (values : List ℚ) (n : ℕ) (hn : 1 ≤ n)
    (hne : values ≠ []) :
    (∀ j, j + 1 < n →
        (rebin values n).r_edges[j]? = (rebin values n).l_edges[j + 1]?) ∧
      (rebin values n).l_edges[0]? = some (lo values) ∧
      (rebin values n).r_edges[n - 1]? = some (hi values) ∧
      (∀ v ∈ values, lo values ≤ v ∧ v ≤ hi values) := by
  have hne2 : (n : ℚ) ≠ 0 := Nat.cast_ne_zero.mpr (by omega)
  refine ⟨?_, ?_, ?_, ?_⟩
  · intro j hj
    show (r_edges values n)[j]? = (l_edges values n)[j + 1]?
    rw [r_edges, l_edges, List.getElem?_map, List.getElem?_map,
      List.getElem?_range (by omega : j < n),
      List.getElem?_range (by omega : j + 1 < n)]
    simp only [Option.map_some']
    congr 1
    push_cast
    ring
  · show (l_edges values n)[0]? = some (lo values)
    rw [l_edges, List.getElem?_map, List.getElem?_range (by omega : 0 < n)]
    simp only [Option.map_some']
    congr 1
    push_cast
    ring
  · show (r_edges values n)[n - 1]? = some (hi values)
    rw [r_edges, List.getElem?_map, List.getElem?_range (by omega : n - 1 < n)]
    simp only [Option.map_some']
    congr 1
    have hcast : ((n - 1 : ℕ) : ℚ) + 1 = (n : ℚ) := by
      push_cast [Nat.cast_sub hn]
      ring
    rw [hcast, bin_size, div_mul_cancel₀ _ hne2]
    ring
  · exact fun v hv => ⟨lo_le_mem values hv, le_hi_mem values hv⟩

/-- Witness for the C4 theorem at a concrete input. -/
theorem edges_partition_witness :
    1 ≤ 2 ∧ ([0, 1, 1, 4] : List ℚ) ≠ [] ∧
      ((∀ j, j + 1 < 2 →
          (rebin [0, 1, 1, 4] 2).r_edges[j]? = (rebin [0, 1, 1, 4] 2).l_edges[j + 1]?) ∧
        (rebin [0, 1, 1, 4] 2).l_edges[0]? = some (lo [0, 1, 1, 4]) ∧
        (rebin [0, 1, 1, 4] 2).r_edges[2 - 1]? = some (hi [0, 1, 1, 4]) ∧
        (∀ v ∈ ([0, 1, 1, 4] : List ℚ), lo [0, 1, 1, 4] ≤ v ∧ v ≤ hi [0, 1, 1, 4])) :=
  ⟨by omega, by simp, edges_partition [0, 1, 1, 4] 2 (by omega) (by simp)⟩

/-- C6 counterexample: rebinning is not free of side effects on the stored
sample array.  For the stored array [2, 1] one invocation leaves the array
[1, 2] behind (Array.prototype.sort sorts in place), which is not
order-for-order the originally supplied array. -/
theorem rebin_mutates_counterexample :
    (rebinStep [2, 1] 1).1 = [1, 2] ∧ ([1, 2] : List ℚ) ≠ [2, 1] := by
  refine ⟨rfl, ?_⟩
  norm_num

/-- C6 amended: one invocation of the callback replaces the stored sample array
by its ascending sort, an in-place permutation: same elements as a multiset,
but not order-for-order the original.  The histogram outputs depend only on
that multiset, so a later invocation on the mutated array returns the same
result as the first. -/
theorem rebin_sorts_in_place (orig : List ℚ) (n : ℕ) :
    (rebinStep orig n).1 = List.insertionSort (· ≤ ·) orig ∧
      ((rebinStep orig n).1).Perm orig ∧
      rebinStep ((rebinStep orig n).1) n = rebinStep orig n := by
  refine ⟨rfl, xSorted_perm orig, ?_⟩
  show (xSorted (xSorted orig), rebin (xSorted orig) n) = (xSorted orig, rebin orig n)
  rw [xSorted_idem, rebin_congr (xSorted orig) orig n (xSorted_idem orig)]

/-- Full evaluation of the rebinner on the example input of the specification:
samples [1, 1, 2, 3, 3, 3, 4, 5] with 4 bins. -/
lemma example_eval : rebin [1, 1, 2, 3, 3, 3, 4, 5] 4 =
    ⟨[1, 2, 3, 4], [2, 3, 4, 5], [3, 3, 1, 1], [3/8, 3/8, 1/8, 1/8]⟩ := by
  have hlo : lo [1, 1, 2, 3, 3, 3, 4, 5] = 1 := rfl
  have hhi : hi [1, 1, 2, 3, 3, 3, 4, 5] = 5 := rfl
  have hbs : bin_size [1, 1, 2, 3, 3, 3, 4, 5] 4 = 1 := by
    rw [bin_size, hhi, hlo]
    norm_num
  have hr4 : List.range 4 = [0, 1, 2, 3] := rfl
  have hre : r_edges [1, 1, 2, 3, 3, 3, 4, 5] 4 = [2, 3, 4, 5] := by
    simp only [r_edges, hbs, hlo, hr4, List.map_cons, List.map_nil]
    norm_num
  have hle : l_edges [1, 1, 2, 3, 3, 3, 4, 5] 4 = [1, 2, 3, 4] := by
    simp only [l_edges, hbs, hlo, hr4, List.map_cons, List.map_nil]
    norm_num
  have hh : hist [1, 1, 2, 3, 3, 3, 4, 5] 4 = [3, 3, 1, 1] := by
    rw [hist, hre]
    rfl
  have ht : total [1, 1, 2, 3, 3, 3, 4, 5] 4 = 8 := by
    rw [total, hh]
    norm_num
  have hd : deltas [1, 1, 2, 3, 3, 3, 4, 5] 4 = [1, 1, 1, 1] := by
    rw [deltas, hre, hle]
    norm_num [List.zipWith_cons_cons]
  have hdens : density [1, 1, 2, 3, 3, 3, 4, 5] 4 = [3/8, 3/8, 1/8, 1/8] := by
    simp only [density, hh, hd, ht, List.zipWith_cons_cons, List.zipWith_nil_right]
    norm_num
  rw [rebin, hle, hre, hh, hdens]

/-- C2 counterexample: on the sample array [1, 1, 2, 3, 3, 3, 4, 5] with 4 bins
the membership rule of the source (smallest j with the sample at most
r_edges[j], scanning in increasing order) puts the sample 2 in bin 0 since
2 is at most the first right edge 2, giving counts [3, 3, 1, 1]; the counts
[2, 1, 3, 2] stated by the claim (the half-open numpy convention) do not match
the rule of this code. -/
theorem example_counts_counterexample :
    (rebin [1, 1, 2, 3, 3, 3, 4, 5] 4).counts ≠ [2, 1, 3, 2] := by
  rw [example_eval]
  norm_num

/-- C2 amended: for samples [1, 1, 2, 3, 3, 3, 4, 5] with 4 bins, the rebinner
produces edges spanning 1 to 5 with bin width 1, per-bin counts [3, 3, 1, 1]
under the membership rule, and density[j] = counts[j] / 1 / 8, which sums
to 1 against the bin widths. -/
theorem example_rebin_eval :
    rebin [1, 1, 2, 3, 3, 3, 4, 5] 4 =
      ⟨[1, 2, 3, 4], [2, 3, 4, 5], [3, 3, 1, 1], [3/8, 3/8, 1/8, 1/8]⟩ ∧
      ([3/8, 3/8, 1/8, 1/8] : List ℚ) =
        [3, 3, 1, 1].map (fun (c : ℕ) => (c : ℚ) / 1 / 8) ∧
      (3/8 * 1 + 3/8 * 1 + 1/8 * 1 + 1/8 * 1 : ℚ) = 1 := by
  refine ⟨example_eval, ?_, ?_⟩ <;> norm_num

end InterHist

namespace KernelExpr

/-- One parameter set, one value of the kernel_params mapping.  A Python dict
whose optional special entry named type (a string selecting the constructor) is
modelled separately because the evaluator pops it; the remaining entries are
numeric constructor options such as length_scale, kept as an association
list. -/
structure ParamSet where
  type? : Option String
  opts : List (String × ℚ)
deriving DecidableEq

/-- The kernel_params mapping from identifier to parameter set, modelled as an
association list with distinct keys (a Python dict in insertion order). -/
abbrev ParamTable := List (String × ParamSet)

/-- The mutable environment the evaluator closure captures: both kernel_params
and kernel_default_params are Python dicts that the evaluator can mutate (the
pop call writes through the alias returned by dict.get). -/
structure EvalState where
  kernel_params : ParamTable
  kernel_default_params : ParamSet
deriving DecidableEq

/-- Dict lookup, source: `node.id not in kernel_params` and `kernel_params.get(node.id, ...)`. -/
def tlookup : ParamTable → String → Option ParamSet
  | [], _ => none
  | (k, v) :: rest, id => if k = id then some v else tlookup rest id

/-- Replacing the value stored under an existing key, the effect of mutating
the dict obtained from lookup. -/
def tupdate : ParamTable → String → ParamSet → ParamTable
  | [], _, _ => []
  | (k, v) :: rest, id, ps =>
    if k = id then (k, ps) :: rest else (k, v) :: tupdate rest id ps

/-- Source: `kernel_type = params.pop('type', 'rbf')` — returns the type entry
(default rbf) and the parameter set with the type entry removed. -/
def popType (ps : ParamSet) : String × ParamSet :=
  (ps.type?.getD "rbf", ⟨none, ps.opts⟩)

/-- Composed kernel values.  The sklearn composition classes Sum, Product and
Exponentiation are lazy wrappers: their constructors store the operands without
any validation, and in particular Exponentiation accepts any exponent, numeric
or kernel, which the two exponentiation constructors reflect. -/
inductive Kernel where
  | base (ktype : String) (opts : List (String × ℚ))
  | sum (a b : Kernel)
  | prod (a b : Kernel)
  | expnNum (a : Kernel) (e : ℚ)
  | expnKer (a : Kernel) (e : Kernel)
deriving DecidableEq

/-- A value produced by eval: either a plain number (from an ast.Num node) or a
kernel object. -/
inductive KValue where
  | num (n : ℚ)
  | kernel (k : Kernel)
deriving DecidableEq

/-- The exceptions the evaluator can raise.  valueError carries the full source
expression and the unresolved identifier, exactly the two pieces of data
interpolated into the message raised by the source (`Error while parsing
kernel_expr: node.id is not a valid key in kernel_params ...`).  keyError is a
failed dict lookup, either an operator missing from the operators table or a
kernel type missing from the kernels registry.  nonRationalResult flags a
number-to-fractional-power computation whose float result has no exact rational
counterpart; no claim exercises it. -/
inductive EvalErr where
  | valueError (expr : String) (id : String)
  | keyError (key : String)
  | typeError
  | zeroDivisionError
  | nonRationalResult
deriving DecidableEq

/-- Binary operator tag of an ast.BinOp node.  The operators table of the
source maps exactly ast.Add, ast.Mult and ast.Pow; any other operator class
(for example ast.Sub or ast.Div) is absent and its lookup raises KeyError,
which the unsupported constructor carries by name. -/
inductive BOp where
  | add
  | mult
  | pow
  | unsupported (opName : String)
deriving DecidableEq

/-- The abstract syntax tree of a kernel expression, the node shapes the
evaluator dispatches on: ast.Num, ast.Name, ast.BinOp and ast.UnaryOp.  The
operators table has no unary operator at all, so a unary node only needs the
class name of its operator (for the KeyError). -/
inductive Expr where
  | num (n : ℚ)
  | name (id : String)
  | binop (op : BOp) (l r : Expr)
  | unaryOp (opName : String) (e : Expr)
deriving DecidableEq

/-- The keys of the kernels registry of the source: const, white, rbf, mat,
rq, esn, dp, pw. -/
def kernelsRegistry : List String :=
  ["const", "white", "rbf", "mat", "rq", "esn", "dp", "pw"]

/-- Source: `kernels[kernel_type](**params)` — a registry lookup (KeyError when
the type is unknown) followed by the constructor call, which packages the type
name with the remaining options.  Validation of the option names against the
constructor signature happens inside sklearn and is out of scope. -/
def mkKernel (ktype : String) (opts : List (String × ℚ)) : Except EvalErr Kernel :=
  if ktype ∈ kernelsRegistry then .ok (.base ktype opts) else .error (.keyError ktype)

/-- Source: sklearn coerces a numeric operand of + or * into
ConstantKernel(value). -/
def constKernel (c : ℚ) : Kernel := .base "const" [("constant_value", c)]

/-- Python number-to-number power.  An integral exponent stays rational (zero
to a negative power raises ZeroDivisionError); a fractional exponent produces a
float that has no exact rational counterpart, flagged instead of approximated.
No claim exercises this case. -/
def numPow (x y : ℚ) : Except EvalErr ℚ :=
  if y.den = 1 then
    if x = 0 ∧ y.num < 0 then .error .zeroDivisionError
    else .ok (x ^ y.num)
  else .error .nonRationalResult

/-- Source: `operators[type(node.op)](_eval(node.left), _eval(node.right))` for
the three present operators, with the operand dispatch of the sklearn kernel
algebra: plus builds Sum, times builds Product, power builds Exponentiation
(with numeric operands of plus and times coerced through ConstantKernel, and a
number to a kernel power a TypeError since numbers have no such power).  The
unsupported case is unreachable from evalNode, which raises the operator
KeyError before evaluating operands. -/
def applyOp : BOp → KValue → KValue → Except EvalErr KValue
  | .add, .num a, .num b => .ok (.num (a + b))
  | .add, .kernel k, .num b => .ok (.kernel (.sum k (constKernel b)))
  | .add, .num a, .kernel k => .ok (.kernel (.sum (constKernel a) k))
  | .add, .kernel k1, .kernel k2 => .ok (.kernel (.sum k1 k2))
  | .mult, .num a, .num b => .ok (.num (a * b))
  | .mult, .kernel k, .num b => .ok (.kernel (.prod k (constKernel b)))
  | .mult, .num a, .kernel k => .ok (.kernel (.prod (constKernel a) k))
  | .mult, .kernel k1, .kernel k2 => .ok (.kernel (.prod k1 k2))
  | .pow, .num a, .num b => (numPow a b).map .num
  | .pow, .kernel k, .num b => .ok (.kernel (.expnNum k b))
  | .pow, .kernel k1, .kernel k2 => .ok (.kernel (.expnKer k1 k2))
  | .pow, .num _, .kernel _ => .error .typeError
  | .unsupported s, _, _ => .error (.keyError s)

/-- The recursive evaluator, source lines 252 to 269 of
interactive_plotting.py.  The state is threaded because dict mutation survives
even a raised exception, so the result is a pair of an Except and the state
after the call.  Evaluation order follows Python: in a call the callee (the
operators table lookup) is evaluated before the arguments, and arguments left
to right.

Num node: return the number.  Name node: raise ValueError when suppress is
false and the identifier is not a key of kernel_params; otherwise take the
matched parameter set (the caller default set when absent), pop its type entry
in place (the mutation lands in whichever dict the lookup aliased), and call
the registry constructor.  BinOp: operator lookup, then left, then right, then
apply.  UnaryOp: the operators table holds no unary operator, so the lookup
raises KeyError before the operand is evaluated. -/
def evalNode (kernel_expr : String) (suppress : Bool) :
    Expr → EvalState → Except EvalErr KValue × EvalState
  | .num n, st => (.ok (.num n), st)
  | .name id, st =>
    if suppress = false ∧ tlookup st.kernel_params id = none then
      (.error (.valueError kernel_expr id), st)
    else
      let params := (tlookup st.kernel_params id).getD st.kernel_default_params
      let tps := popType params
      let st2 :=
        match tlookup st.kernel_params id with
        | some _ => { st with kernel_params := tupdate st.kernel_params id tps.2 }
        | none => { st with kernel_default_params := tps.2 }
      match mkKernel tps.1 tps.2.opts with
      | .ok k => (.ok (.kernel k), st2)
      | .error e => (.error e, st2)
  | .binop op l r, st =>
    match op with
    | .unsupported s => (.error (.keyError s), st)
    | _ =>
      match evalNode kernel_expr suppress l st with
      | (.error e, st1) => (.error e, st1)
      | (.ok v1, st1) =>
        match evalNode kernel_expr suppress r st1 with
        | (.error e, st2) => (.error e, st2)
        | (.ok v2, st2) => (applyOp op v1 v2, st2)
  | .unaryOp opName _, st => (.error (.keyError opName), st)

/-- The kernel-expression resolution of the gp branch of smooth_expression
(source lines 302 to 304): when kernel_expr is None, assert that kernel_params
has exactly one entry and use its single key as the expression string that is
then parsed and evaluated. -/
inductive SmoothErr where
  | assertionError
deriving DecidableEq

/-- Source:
`if kernel_expr is None: assert len(kernel_params) == 1;
kernel_expr, = kernel_params.keys()`. -/
def gpKernelExpr (kernel_expr : Option String) (kernel_params : ParamTable) :
    Except SmoothErr String :=
  match kernel_expr with
  | some e => .ok e
  | none =>
    match kernel_params with
    | [(k, _)] => .ok k
    | _ => .error .assertionError

/-- Updating the value stored under a key present in the table makes a later
lookup of that key return the new value. -/
lemma tlookup_tupdate_self :
    ∀ (tbl : ParamTable) (id : String) (ps0 ps : ParamSet),
      tlookup tbl id = some ps0 → tlookup (tupdate tbl id ps) id = some ps := by
  intro tbl
  induction tbl with
  | nil => intro id ps0 ps h; simp [tlookup] at h
  | cons kv rest ih =>
    intro id ps0 ps h
    obtain ⟨k, v⟩ := kv
    rw [tlookup] at h
    rw [tupdate]
    by_cases hk : k = id
    · rw [if_pos hk, tlookup, if_pos hk]
    · rw [if_neg hk] at h
      rw [if_neg hk, tlookup, if_neg hk]
      exact ih id ps0 ps h

lemma mkKernel_rbf (opts : List (String × ℚ)) :
    mkKernel "rbf" opts = .ok (.base "rbf" opts) := by
  rw [mkKernel, if_pos (by decide)]

/-!
Claim theorems for the kernel-expression evaluator.
-/

/-- C5 counterexample: evaluating the identifier k against the table mapping k
to a parameter set with type mat mutates the table (the type entry is popped
from the dict of the caller), and a second evaluation against the mutated state
returns a different kernel (rbf instead of mat). -/
theorem eval_mutates_counterexample :
    (evalNode "k" false (.name "k") ⟨[("k", ⟨some "mat", []⟩)], ⟨none, []⟩⟩).2
        ≠ ⟨[("k", ⟨some "mat", []⟩)], ⟨none, []⟩⟩ ∧
      (evalNode "k" false (.name "k")
          ((evalNode "k" false (.name "k")
            ⟨[("k", ⟨some "mat", []⟩)], ⟨none, []⟩⟩).2)).1
        ≠ (evalNode "k" false (.name "k")
            ⟨[("k", ⟨some "mat", []⟩)], ⟨none, []⟩⟩).1 := by
  constructor
  · intro h
    exact absurd (congrArg EvalState.kernel_params h) (by decide)
  · intro h
    have h2 := congrArg (fun x => x = Except.ok (KValue.kernel (.base "rbf" []))) h
    rw [show (evalNode "k" false (.name "k")
          ((evalNode "k" false (.name "k")
            ⟨[("k", ⟨some "mat", []⟩)], ⟨none, []⟩⟩).2)).1
        = Except.ok (KValue.kernel (.base "rbf" [])) from rfl] at h2
    rw [show (evalNode "k" false (.name "k")
          ⟨[("k", ⟨some "mat", []⟩)], ⟨none, []⟩⟩).1
        = Except.ok (KValue.kernel (.base "mat" [])) from rfl] at h2
    simp at h2

/-- C5 amended: identifier lookup pops the type entry of the matched parameter
set in place: after evaluating an identifier bound in the table, the state maps
it to the same options without the type entry, and a second evaluation of the
same identifier against that state falls back to the rbf default, so repeated
evaluations are not idempotent for a set carrying an explicit non-rbf type. -/
theorem eval_pops_type_in_place (kernel_expr : String) (suppress : Bool)
    (id t : String) (ps : ParamSet) (st : EvalState)
    (hlk : tlookup st.kernel_params id = some ps) (ht : ps.type? = some t)
    (hreg : t ∈ kernelsRegistry) :
    evalNode kernel_expr suppress (.name id) st =
      (.ok (.kernel (.base t ps.opts)),
        { st with kernel_params := tupdate st.kernel_params id ⟨none, ps.opts⟩ }) ∧
      (evalNode kernel_expr suppress (.name id)
          { st with kernel_params := tupdate st.kernel_params id ⟨none, ps.opts⟩ }).1
        = .ok (.kernel (.base "rbf" ps.opts)) := by
  constructor
  · rw [evalNode]
    simp [hlk, popType, ht, mkKernel, hreg]
  · have hlk2 : tlookup (tupdate st.kernel_params id ⟨none, ps.opts⟩) id
        = some ⟨none, ps.opts⟩ := tlookup_tupdate_self st.kernel_params id ps _ hlk
    rw [evalNode]
    simp [hlk2, popType, mkKernel_rbf]

/-- Witness for the C5 amended theorem at a concrete input. -/
theorem eval_pops_type_in_place_witness :
    tlookup [("k", ParamSet.mk (some "mat") [])] "k" = some ⟨some "mat", []⟩ ∧
      ParamSet.type? ⟨some "mat", []⟩ = some "mat" ∧ "mat" ∈ kernelsRegistry ∧
      evalNode "k" false (.name "k") ⟨[("k", ⟨some "mat", []⟩)], ⟨none, []⟩⟩
        = (.ok (.kernel (.base "mat" [])), ⟨[("k", ⟨none, []⟩)], ⟨none, []⟩⟩) :=
  ⟨rfl, rfl, by decide,
    (eval_pops_type_in_place "k" false "k" "mat" ⟨some "mat", []⟩
      ⟨[("k", ⟨some "mat", []⟩)], ⟨none, []⟩⟩ rfl rfl (by decide)).1⟩

/-- C7 counterexample: the expression k plus unknown contains the identifier
unknown, unresolved in the table, and suppress is false, yet evaluation fails
with the KeyError for the unregistered kernel type bogus of the left operand k,
an error naming neither the identifier unknown nor the source expression: an
earlier error preempts the identifier check. -/
theorem unknown_id_error_counterexample :
    (evalNode "k + unknown" false (.binop .add (.name "k") (.name "unknown"))
        ⟨[("k", ⟨some "bogus", []⟩)], ⟨none, []⟩⟩).1 = .error (.keyError "bogus") ∧
      EvalErr.keyError "bogus" ≠ .valueError "k + unknown" "unknown" :=
  ⟨rfl, by decide⟩

/-- C7 amended: when the evaluator reaches an identifier node whose identifier
does not resolve in the table and suppress is false, it fails with the
ValueError naming both the identifier and the full source expression, before
constructing any kernel and leaving the state untouched; an error raised
earlier in evaluation order can preempt this for expressions where the
unresolved identifier is not reached. -/
theorem unknown_id_error_at_name_node (kernel_expr id : String) (st : EvalState)
    (h : tlookup st.kernel_params id = none) :
    evalNode kernel_expr false (.name id) st =
      (.error (.valueError kernel_expr id), st) := by
  rw [evalNode, if_pos ⟨rfl, h⟩]

/-- Witness for the C7 amended theorem at a concrete input. -/
theorem unknown_id_error_at_name_node_witness :
    tlookup ([] : ParamTable) "unknown_id" = none ∧
      evalNode "unknown_id" false (.name "unknown_id") ⟨[], ⟨none, []⟩⟩
        = (.error (.valueError "unknown_id" "unknown_id"), ⟨[], ⟨none, []⟩⟩) :=
  ⟨rfl, unknown_id_error_at_name_node "unknown_id" "unknown_id" ⟨[], ⟨none, []⟩⟩ rfl⟩

/-- C8 counterexample: in the expression k to the power j both operands resolve
to kernels, and evaluation succeeds, returning the exponentiation of the two
kernels: a kernel-valued right operand of the power operator is not rejected
with any error. -/
theorem pow_kernel_exponent_counterexample :
    evalNode "k ** j" false (.binop .pow (.name "k") (.name "j"))
        ⟨[("k", ⟨none, []⟩), ("j", ⟨none, []⟩)], ⟨none, []⟩⟩
      = (.ok (.kernel (.expnKer (.base "rbf" []) (.base "rbf" []))),
         ⟨[("k", ⟨none, []⟩), ("j", ⟨none, []⟩)], ⟨none, []⟩⟩) := rfl

/-- C8 amended: for every binary node the evaluator recursively evaluates both
operands left to right and applies the operator: plus yields the kernel sum,
times the kernel product, and power the kernel exponentiation, including when
the right operand of power evaluates to a kernel, which is accepted (sklearn
Exponentiation stores the exponent unchecked) rather than rejected. -/
theorem binop_applies_operators (kernel_expr : String) (suppress : Bool)
    (l r : Expr) (st st1 st2 : EvalState) (k1 k2 : Kernel)
    (hl : evalNode kernel_expr suppress l st = (.ok (.kernel k1), st1))
    (hr : evalNode kernel_expr suppress r st1 = (.ok (.kernel k2), st2)) :
    evalNode kernel_expr suppress (.binop .add l r) st
        = (.ok (.kernel (.sum k1 k2)), st2) ∧
      evalNode kernel_expr suppress (.binop .mult l r) st
        = (.ok (.kernel (.prod k1 k2)), st2) ∧
      evalNode kernel_expr suppress (.binop .pow l r) st
        = (.ok (.kernel (.expnKer k1 k2)), st2) := by
  refine ⟨?_, ?_, ?_⟩ <;> rw [evalNode] <;> simp [hl, hr, applyOp]

/-- Witness for the C8 amended theorem at a concrete input. -/
theorem binop_applies_operators_witness :
    evalNode "k + j" false (.name "k")
        ⟨[("k", ⟨none, []⟩), ("j", ⟨none, []⟩)], ⟨none, []⟩⟩
      = (.ok (.kernel (.base "rbf" [])),
         ⟨[("k", ⟨none, []⟩), ("j", ⟨none, []⟩)], ⟨none, []⟩⟩) ∧
      evalNode "k + j" false (.name "j")
        ⟨[("k", ⟨none, []⟩), ("j", ⟨none, []⟩)], ⟨none, []⟩⟩
      = (.ok (.kernel (.base "rbf" [])),
         ⟨[("k", ⟨none, []⟩), ("j", ⟨none, []⟩)], ⟨none, []⟩⟩) ∧
      evalNode "k + j" false (.binop .add (.name "k") (.name "j"))
        ⟨[("k", ⟨none, []⟩), ("j", ⟨none, []⟩)], ⟨none, []⟩⟩
      = (.ok (.kernel (.sum (.base "rbf" []) (.base "rbf" []))),
         ⟨[("k", ⟨none, []⟩), ("j", ⟨none, []⟩)], ⟨none, []⟩⟩) :=
  ⟨rfl, rfl,
    (binop_applies_operators "k + j" false (.name "k") (.name "j")
      ⟨[("k", ⟨none, []⟩), ("j", ⟨none, []⟩)], ⟨none, []⟩⟩
      ⟨[("k", ⟨none, []⟩), ("j", ⟨none, []⟩)], ⟨none, []⟩⟩
      ⟨[("k", ⟨none, []⟩), ("j", ⟨none, []⟩)], ⟨none, []⟩⟩
      (.base "rbf" []) (.base "rbf" []) rfl rfl).1⟩

/-- C9 counterexample: the expression consisting solely of the bare numeric
literal 2 evaluates without any error to the plain number 2 as the composed
result: nothing is flagged. -/
theorem bare_literal_counterexample :
    evalNode "2" false (.num 2) ⟨[], ⟨none, []⟩⟩
      = (.ok (.num 2), ⟨[], ⟨none, []⟩⟩) := rfl

/-- C9 amended: for every expression consisting solely of a bare numeric
literal, evaluation silently returns the numeric value itself as the composed
result (which is then handed to the model constructor as if it were a kernel);
no error is raised and the state is untouched. -/
theorem bare_literal_returns_number (kernel_expr : String) (suppress : Bool)
    (n : ℚ) (st : EvalState) :
    evalNode kernel_expr suppress (.num n) st = (.ok (.num n), st) := rfl

/-- C10: with mode gp and kernel_expr None, the call requires kernel_params to
contain exactly one entry: it fails with AssertionError for every table whose
length is not one, and for a singleton table uses the single key as the kernel
expression string that is then parsed and evaluated. -/
theorem gp_kernel_expr_from_singleton :
    (∀ (k : String) (ps : ParamSet), gpKernelExpr none [(k, ps)] = .ok k) ∧
      (∀ tbl : ParamTable, tbl.length ≠ 1 →
        gpKernelExpr none tbl = .error .assertionError) := by
  constructor
  · intro k ps
    rfl
  · intro tbl hlen
    cases tbl with
    | nil => rfl
    | cons a rest =>
      cases rest with
      | nil => simp at hlen
      | cons b t => rfl

/-- Witness for the C10 theorem at concrete inputs. -/
theorem gp_kernel_expr_from_singleton_witness :
    gpKernelExpr none [("k", ParamSet.mk none [])] = .ok "k" ∧
      (([] : ParamTable).length ≠ 1 ∧
        gpKernelExpr none [] = .error .assertionError) ∧
      (([("a", ParamSet.mk none []), ("b", ParamSet.mk none [])] : ParamTable).length ≠ 1 ∧
        gpKernelExpr none [("a", ParamSet.mk none []), ("b", ParamSet.mk none [])]
          = .error .assertionError) :=
  ⟨gp_kernel_expr_from_singleton.1 "k" ⟨none, []⟩,
    ⟨by decide, gp_kernel_expr_from_singleton.2 [] (by decide)⟩,
    ⟨by decide, gp_kernel_expr_from_singleton.2
      [("a", ParamSet.mk none []), ("b", ParamSet.mk none [])] (by decide)⟩⟩

end KernelExpr
